import Mathlib

/-!
Verification of the metrics aggregation and analysis engine of the
`k8s-hpa-cost-tuning` scripts (`audit-metrics.mjs`, `incident-metrics.mjs`).

The scripts manipulate JavaScript numbers and `Map` objects keyed by
millisecond timestamps.  We embed JavaScript numbers as an inductive type
`JSNum` with an exact rational payload for finite values plus the three
non-finite values (`NaN`, `Infinity`, `-Infinity`); finite arithmetic is
modelled exactly over `ℚ` (rounding/overflow of IEEE doubles is out of
scope).  A JavaScript `Map` is embedded as an insertion-ordered association
list `List (Int × JSNum)`; `Map.get` returns the value of the first entry
with the key, `Map.set` updates an existing entry in place or appends a new
one at the end, matching JavaScript `Map` semantics (where keys are in fact
unique).
-/

/-- Embedding of a JavaScript number: an exact rational for finite values,
plus `NaN`, `Infinity` and `-Infinity`. -/
inductive JSNum : Type
  | fin (q : ℚ)
  | nan
  | inf
  | negInf
deriving DecidableEq, Repr

namespace JSNum

/-- `Number.isFinite`. -/
def isFinite : JSNum → Bool
  | fin _ => true
  | _ => false

/-- JavaScript `+` on numbers. -/
def add : JSNum → JSNum → JSNum
  | fin a, fin b => fin (a + b)
  | nan, _ => nan
  | _, nan => nan
  | inf, negInf => nan
  | negInf, inf => nan
  | inf, _ => inf
  | _, inf => inf
  | negInf, _ => negInf
  | _, negInf => negInf

/-- JavaScript `-` on numbers. -/
def sub : JSNum → JSNum → JSNum
  | fin a, fin b => fin (a - b)
  | nan, _ => nan
  | _, nan => nan
  | inf, inf => nan
  | negInf, negInf => nan
  | inf, _ => inf
  | negInf, _ => negInf
  | _, inf => negInf
  | _, negInf => inf

/-- JavaScript `*` on numbers (no overflow: finite products stay exact). -/
def mul : JSNum → JSNum → JSNum
  | fin a, fin b => fin (a * b)
  | nan, _ => nan
  | _, nan => nan
  | inf, inf => inf
  | inf, negInf => negInf
  | negInf, inf => negInf
  | negInf, negInf => inf
  | inf, fin b => if b = 0 then nan else if 0 < b then inf else negInf
  | fin a, inf => if a = 0 then nan else if 0 < a then inf else negInf
  | negInf, fin b => if b = 0 then nan else if 0 < b then negInf else inf
  | fin a, negInf => if a = 0 then nan else if 0 < a then negInf else inf

/-- JavaScript `/` on numbers (only the positive zero is modelled, so
`x / 0` takes the sign of `x`). -/
def div : JSNum → JSNum → JSNum
  | fin a, fin b =>
      if b = 0 then (if a = 0 then nan else if 0 < a then inf else negInf)
      else fin (a / b)
  | nan, _ => nan
  | _, nan => nan
  | fin _, inf => fin 0
  | fin _, negInf => fin 0
  | inf, fin b => if 0 ≤ b then inf else negInf
  | negInf, fin b => if 0 ≤ b then negInf else inf
  | inf, _ => nan
  | negInf, _ => nan

/-- JavaScript `>` on numbers (`NaN` compares false on both sides). -/
def gt : JSNum → JSNum → Bool
  | nan, _ => false
  | _, nan => false
  | fin a, fin b => decide (b < a)
  | fin _, inf => false
  | fin _, negInf => true
  | inf, inf => false
  | inf, _ => true
  | negInf, _ => false

/-- JavaScript `Math.min` of two numbers (`NaN` propagates). -/
def jsMin : JSNum → JSNum → JSNum
  | nan, _ => nan
  | _, nan => nan
  | fin a, fin b => fin (min a b)
  | inf, x => x
  | x, inf => x
  | negInf, _ => negInf
  | _, negInf => negInf

/-- JavaScript `Math.max` of two numbers (`NaN` propagates). -/
def jsMax : JSNum → JSNum → JSNum
  | nan, _ => nan
  | _, nan => nan
  | fin a, fin b => fin (max a b)
  | negInf, x => x
  | x, negInf => x
  | inf, _ => inf
  | _, inf => inf

/-- The rational payload of a finite value. -/
def toRat : JSNum → Option ℚ
  | fin q => some q
  | _ => none

end JSNum

open JSNum

/-- A JavaScript `Map` from millisecond timestamps to numbers, as an
insertion-ordered association list. -/
abbrev SeriesMap : Type := List (Int × JSNum)

/-- `Map.get`: the value of the first entry with the given key (`none`
embeds `undefined`). -/
def mapGet : SeriesMap → Int → Option JSNum
  | [], _ => none
  | (k2, v) :: rest, k => if k = k2 then some v else mapGet rest k

/-- `Map.set`: update the first entry with the key in place, otherwise
append a fresh entry at the end. -/
def mapSet : SeriesMap → Int → JSNum → SeriesMap
  | [], k, v => [(k, v)]
  | (k2, v2) :: rest, k, v =>
      if k = k2 then (k2, v) :: rest else (k2, v2) :: mapSet rest k v

/-- JavaScript `x || 0` applied to `points.get(ts)`: `undefined`, `NaN`
and `0` are falsy and give `0`; anything else is returned unchanged. -/
def jsOr0 : Option JSNum → JSNum
  | none => fin 0
  | some (fin q) => if q = 0 then fin 0 else fin q
  | some nan => fin 0
  | some v => v

/-- One provider point `[ts, value]`; a `none` value embeds JSON `null`. -/
abbrev DDPoint : Type := Int × Option JSNum

/-- Source `aggregateSeriesByTimestamp`, inner loop body: skip a point whose
value is `null`/`undefined` (`value == null`), otherwise
`points.set(ts, (points.get(ts) || 0) + Number(value))`. -/
def addPoint (pts : SeriesMap) (p : DDPoint) : SeriesMap :=
  match p.2 with
  | none => pts
  | some v => mapSet pts p.1 (JSNum.add (jsOr0 (mapGet pts p.1)) v)

/-- Source `aggregateSeriesByTimestamp`: each tagged series of the provider
response is represented by its (possibly empty) pointlist — the source reads
`item?.pointlist || []`, so an item without a pointlist behaves as the empty
list. -/
def aggregateSeriesByTimestamp (series : List (List DDPoint)) : SeriesMap :=
  series.foldl (fun pts pl => pl.foldl addPoint pts) []

/-- Key order used by `mapToSortedEntries` (`.sort((a, b) => a[0] - b[0])`). -/
def tsLe (p q : Int × JSNum) : Prop := p.1 ≤ q.1

instance : DecidableRel tsLe := fun p q => inferInstanceAs (Decidable (p.1 ≤ q.1))

instance : IsTotal (Int × JSNum) tsLe := ⟨fun p q => Int.le_total p.1 q.1⟩

instance : IsTrans (Int × JSNum) tsLe := ⟨fun _ _ _ h h2 => le_trans h h2⟩

/-- Source `mapToSortedEntries`: the entries sorted by ascending timestamp
(keys of a `Map` are unique, so any comparison sort computes the same
list). -/
def mapToSortedEntries (m : SeriesMap) : List (Int × JSNum) :=
  List.insertionSort tsLe m

/-- Source `ratioSeries`, loop body: skip a timestamp whose denominator is
absent (`== null`) or `=== 0`, otherwise emit
`(numerator / denominator) * multiplier`. -/
def ratioStep (den : SeriesMap) (m : JSNum) (out : SeriesMap) (p : Int × JSNum) :
    SeriesMap :=
  match mapGet den p.1 with
  | none => out
  | some d =>
      if d = fin 0 then out
      else mapSet out p.1 (JSNum.mul (JSNum.div p.2 d) m)

/-- Source `ratioSeries`. -/
def ratioSeries (num den : SeriesMap) (m : JSNum) : SeriesMap :=
  num.foldl (ratioStep den m) []

/-- Source `diffSeries`, loop body: skip a timestamp absent from `b`
(`bVal == null`), otherwise emit `aVal - bVal`. -/
def diffStep (b : SeriesMap) (out : SeriesMap) (p : Int × JSNum) : SeriesMap :=
  match mapGet b p.1 with
  | none => out
  | some bv => mapSet out p.1 (JSNum.sub p.2 bv)

/-- Source `diffSeries`. -/
def diffSeries (a b : SeriesMap) : SeriesMap :=
  a.foldl (diffStep b) []

/-- Source `statsFromMap` result record. -/
structure SeriesStats : Type where
  samples : Nat
  min : JSNum
  avg : JSNum
  max : JSNum
  last : JSNum
deriving DecidableEq, Repr

/-- Source `statsFromMap`: sort the entries by timestamp, keep the finite
values, and reduce.  `Math.min(...values)` and `Math.max(...values)` are the
folds of the two-argument `Math.min`/`Math.max` with their empty-call
identities `Infinity` and `-Infinity`; `last` is `values[values.length - 1]`. -/
def statsFromMap (m : SeriesMap) : Option SeriesStats :=
  match ((mapToSortedEntries m).map Prod.snd).filter JSNum.isFinite with
  | [] => none
  | v :: vs =>
      some
        { samples := (v :: vs).length
          min := (v :: vs).foldl JSNum.jsMin JSNum.inf
          avg := JSNum.div ((v :: vs).foldl JSNum.add (fin 0)) (fin ((v :: vs).length : ℚ))
          max := (v :: vs).foldl JSNum.jsMax JSNum.negInf
          last := (v :: vs).getLast (List.cons_ne_nil v vs) }

/-- Source `peakRatioDetails` result record (`best`). -/
structure Peak : Type where
  ts : Int
  ratio : JSNum
  numerator : JSNum
  denominator : JSNum
deriving DecidableEq, Repr

/-- Source `peakRatioDetails`, loop body: `denominatorMap.get(ts)` of an
absent key is `undefined`, for which `Number.isFinite` is false; a timestamp
is skipped unless both values are finite and the denominator differs from
`0` (`=== 0`); a strictly greater ratio (`ratio > best.ratio`) replaces the
current best. -/
def peakStep (den : SeriesMap) (m : JSNum) (best : Option Peak) (p : Int × JSNum) :
    Option Peak :=
  match mapGet den p.1 with
  | none => best
  | some d =>
      if p.2.isFinite && d.isFinite && !(decide (d = fin 0)) then
        let ratio := JSNum.mul (JSNum.div p.2 d) m
        match best with
        | none => some ⟨p.1, ratio, p.2, d⟩
        | some b => if JSNum.gt ratio b.ratio then some ⟨p.1, ratio, p.2, d⟩ else best
      else best

/-- Source `peakRatioDetails`. -/
def peakRatioDetails (num den : SeriesMap) (m : JSNum) : Option Peak :=
  num.foldl (peakStep den m) none

/-- A numerator entry the `peakRatioDetails` scan does not skip: finite
numerator value, and a present, finite, non-zero denominator value. -/
def validEntry (den : SeriesMap) (p : Int × JSNum) : Bool :=
  p.2.isFinite &&
    match mapGet den p.1 with
    | none => false
    | some d => d.isFinite && !(decide (d = fin 0))

/-- The ratio `peakRatioDetails` computes for a numerator entry (`nan` when
the denominator is absent, mirroring `undefined` arithmetic). -/
def entryRatio (den : SeriesMap) (m : JSNum) (p : Int × JSNum) : JSNum :=
  match mapGet den p.1 with
  | none => JSNum.nan
  | some d => JSNum.mul (JSNum.div p.2 d) m

/-- Source `capacityPlanning` block of `incident-metrics.mjs` (the IIFE in
the summary), as a function of the two raw series it reads. -/
structure CapacityPlan : Type where
  peakTs : Int
  peakRequestedPct : JSNum
  peakRequestedCores : JSNum
  allocatableAtPeakCores : JSNum
  requiredAllocatableFor80Pct : JSNum
  requiredAllocatableFor70Pct : JSNum
  scaleFactorFor80Pct : JSNum
  scaleFactorFor70Pct : JSNum
deriving DecidableEq, Repr

/-- Source capacity planning: `peakRatioDetails(requests, allocatable, 100)`;
`requiredAllocatableForXXPct = peakRequestedCores / target` and
`scaleFactorForXXPct = requiredAllocatableForXXPct / allocatableAtPeakCores`
for the targets `0.8` and `0.7`. -/
def capacityPlanning (req alloc : SeriesMap) : Option CapacityPlan :=
  match peakRatioDetails req alloc (fin 100) with
  | none => none
  | some peak =>
      let required80 := JSNum.div peak.numerator (fin (4 / 5 : ℚ))
      let required70 := JSNum.div peak.numerator (fin (7 / 10 : ℚ))
      some
        { peakTs := peak.ts
          peakRequestedPct := peak.ratio
          peakRequestedCores := peak.numerator
          allocatableAtPeakCores := peak.denominator
          requiredAllocatableFor80Pct := required80
          requiredAllocatableFor70Pct := required70
          scaleFactorFor80Pct := JSNum.div required80 peak.denominator
          scaleFactorFor70Pct := JSNum.div required70 peak.denominator }

/-- ASCII digit test, `\d` of the window regex. -/
def isAsciiDigit (c : Char) : Bool := decide ('0' ≤ c) && decide (c ≤ '9')

/-- Whitespace stripped by `String.prototype.trim` (the common four). -/
def jsIsSpace (c : Char) : Bool := c = ' ' || c = '\t' || c = '\n' || c = '\r'

/-- `String.prototype.trim` on a character list. -/
def trimChars (l : List Char) : List Char :=
  ((l.dropWhile jsIsSpace).reverse.dropWhile jsIsSpace).reverse

/-- Decimal value of a digit string, `Number(match[1])` (exact; IEEE
rounding of huge literals is out of scope). -/
def digitsVal (l : List Char) : Nat :=
  l.foldl (fun acc c => acc * 10 + (c.toNat - '0'.toNat)) 0

/-- Milliseconds per window unit: `m` is 60000, `h` is 3600000 and `d` is
86400000. -/
def msPerUnit (c : Char) : Int :=
  if c = 'm' then 60000 else if c = 'h' then 3600000 else 86400000

/-- Source `parseWindowMs`: trim the input, match `^(\d+)([mhd])$` (a
non-empty run of digits followed by one unit letter), and convert to
milliseconds; `none` embeds the `null` returned on a failed match. -/
def parseWindowMs (input : List Char) : Option Int :=
  let s := trimChars input
  match s.getLast? with
  | none => none
  | some u =>
      let ds := s.dropLast
      if ds ≠ [] ∧ ds.all isAsciiDigit then
        if u = 'm' then some ((digitsVal ds : Int) * 60000)
        else if u = 'h' then some ((digitsVal ds : Int) * 3600000)
        else if u = 'd' then some ((digitsVal ds : Int) * 86400000)
        else none
      else none

/-- Source `parseTimeRange` of `audit-metrics.mjs` with no `--from`: the end
instant is fixed (milliseconds since epoch), `window || '24h'` treats an
absent or empty window as the default, `if (!windowMs) throw` rejects both a
failed parse (`null`) and a zero duration (both falsy), and otherwise
`start = end - windowMs`.  `none` embeds the thrown `InvalidWindow` error. -/
def resolveStartNoFrom (endMs : Int) (window : Option (List Char)) : Option Int :=
  let w :=
    match window with
    | none => String.toList "24h"
    | some s => if s = [] then String.toList "24h" else s
  match parseWindowMs w with
  | none => none
  | some ms => if ms = 0 then none else some (endMs - ms)

/-- The two cluster-CPU-waste rules of `printRecommendations`. -/
inductive CpuWasteRec : Type
  | broad
  | moderate
deriving DecidableEq, Repr

/-- Source `printRecommendations`, first rule pair: `cpuWaste?.avg > 30`
emits the broad reduce-requests message, else `cpuWaste?.avg > 15` emits the
moderate message (optional chaining on an absent summary yields `undefined`,
which compares false). -/
def cpuWasteRule (cpuWaste : Option SeriesStats) : Option CpuWasteRec :=
  if (match cpuWaste with | none => false | some s => JSNum.gt s.avg (fin 30)) then
    some CpuWasteRec.broad
  else if (match cpuWaste with | none => false | some s => JSNum.gt s.avg (fin 15)) then
    some CpuWasteRec.moderate
  else none

/-- Left-pad a string with zeros to the given length. -/
def padLeftZeros (s : String) (n : Nat) : String :=
  String.mk (List.replicate (n - s.length) '0') ++ s

/-- Fixed-point decimal rendering of a rational, approximating
`Number.prototype.toFixed` (round half up; the exact IEEE tie behaviour is
out of scope — nothing below depends on the digits). -/
def renderFixed (q : ℚ) (decimals : Nat) : String :=
  let n : Int := ((q * ((10 : ℚ) ^ decimals) + 1 / 2) : ℚ).floor
  let a := n.natAbs
  let ip := a / 10 ^ decimals
  let fp := a % 10 ^ decimals
  (if n < 0 then "-" else "") ++ toString ip ++
    (if decimals = 0 then "" else "." ++ padLeftZeros (toString fp) decimals)

/-- Source `formatNumber`: `'n/a'` for a non-finite value, otherwise
`toFixed(decimals)`. -/
def formatNumber (v : JSNum) (decimals : Nat := 2) : String :=
  match v with
  | fin q => renderFixed q decimals
  | _ => "n/a"

/-- Source `printLine` (both scripts), as the rendered line: a `null` stats
record prints `name: n/a`, otherwise the avg/max/last/samples line. -/
def renderLine (name : String) (stats : Option SeriesStats) (unit : String) : String :=
  match stats with
  | none => name ++ ": n/a"
  | some s =>
      name ++ ": avg=" ++ formatNumber s.avg ++ unit ++ " max=" ++
        formatNumber s.max ++ unit ++ " last=" ++ formatNumber s.last ++ unit ++
        " samples=" ++ toString s.samples

/-- The finite sample values of a series, as the list of non-null samples
at a timestamp across all component pointlists. -/
def samplesAt (l : List DDPoint) (t : Int) : List JSNum :=
  l.filterMap (fun p => if p.1 = t then p.2 else none)

/-- The non-null samples a provider response contributes at a timestamp,
in processing order. -/
def seriesSamplesAt (series : List (List DDPoint)) (t : Int) : List JSNum :=
  samplesAt series.flatten t

/-- Sum of the rational payloads of the finite values of a list. -/
def sumRats (l : List JSNum) : ℚ :=
  (l.filterMap JSNum.toRat).sum

/-- The rational payloads of the finite values of a series map. -/
def finiteRats (m : SeriesMap) : List ℚ :=
  m.filterMap (fun p => JSNum.toRat p.2)

theorem mapGet_mapSet_self (m : SeriesMap) (k : Int) (v : JSNum) :
    mapGet (mapSet m k v) k = some v := by
  induction m with
  | nil => simp [mapSet, mapGet]
  | cons p rest ih =>
      obtain ⟨k2, v2⟩ := p
      by_cases h : k = k2 <;> simp [mapSet, mapGet, h, ih]

theorem mapGet_mapSet_ne (m : SeriesMap) (k k2 : Int) (v : JSNum) (h : k2 ≠ k) :
    mapGet (mapSet m k v) k2 = mapGet m k2 := by
  induction m with
  | nil => simp [mapSet, mapGet, h]
  | cons p rest ih =>
      obtain ⟨k3, v3⟩ := p
      by_cases hk : k = k3
      · subst hk
        simp [mapSet, mapGet, h, ih]
      · by_cases hk2 : k2 = k3 <;> simp [mapSet, mapGet, hk, hk2, ih]

theorem mem_of_mapGet_eq_some (m : SeriesMap) (k : Int) (v : JSNum)
    (h : mapGet m k = some v) : (k, v) ∈ m := by
  induction m with
  | nil => simp [mapGet] at h
  | cons p rest ih =>
      obtain ⟨k2, v2⟩ := p
      by_cases hk : k = k2
      · subst hk
        simp [mapGet] at h
        simp [h]
      · simp [mapGet, hk] at h
        exact List.mem_cons_of_mem _ (ih h)

theorem mapGet_eq_none_iff (m : SeriesMap) (k : Int) :
    mapGet m k = none ↔ ∀ v, (k, v) ∉ m := by
  induction m with
  | nil => simp [mapGet]
  | cons p rest ih =>
      obtain ⟨k2, v2⟩ := p
      by_cases hk : k = k2
      · subst hk
        simp only [mapGet, if_pos rfl]
        constructor
        · intro h
          simp at h
        · intro h
          exact absurd (List.mem_cons_self _ _) (h v2)
      · simp only [mapGet, if_neg hk, ih]
        constructor
        · intro h v hv
          rcases List.mem_cons.1 hv with he | hm
          · exact hk (congrArg Prod.fst he)
          · exact h v hm
        · intro h v hv
          exact h v (List.mem_cons_of_mem _ hv)

theorem mapGet_eq_some_of_mem_nodup (m : SeriesMap) (k : Int) (v : JSNum)
    (hnd : (List.map Prod.fst m).Nodup) (hm : (k, v) ∈ m) :
    mapGet m k = some v := by
  induction m with
  | nil => simp at hm
  | cons p rest ih =>
      obtain ⟨k2, v2⟩ := p
      simp only [List.map_cons, List.nodup_cons] at hnd
      rcases List.mem_cons.1 hm with h | h
      · rw [show k = k2 from (Prod.ext_iff.1 h).1, show v = v2 from (Prod.ext_iff.1 h).2]
        simp [mapGet]
      · have hk : k ≠ k2 := by
          intro hkk
          subst hkk
          exact hnd.1 (List.mem_map.2 ⟨(k, v), h, rfl⟩)
        simp [mapGet, hk]
        exact ih hnd.2 h

theorem ratio_fold_mem (den : SeriesMap) (m : JSNum) (l : List (Int × JSNum))
    (out : SeriesMap) (t : Int) (v : JSNum)
    (h : mapGet (l.foldl (ratioStep den m) out) t = some v) :
    mapGet out t = some v ∨
      ∃ av d, (t, av) ∈ l ∧ mapGet den t = some d ∧ d ≠ fin 0 ∧
        v = JSNum.mul (JSNum.div av d) m := by
  induction l generalizing out with
  | nil => exact Or.inl h
  | cons p rest ih =>
      rw [List.foldl_cons] at h
      rcases ih _ h with hacc | ⟨av, d, hmem, hd, hdz, hv⟩
      · cases hden : mapGet den p.1 with
        | none =>
            simp only [ratioStep, hden] at hacc
            exact Or.inl hacc
        | some d =>
            simp only [ratioStep, hden] at hacc
            by_cases hz : d = fin 0
            · rw [if_pos hz] at hacc
              exact Or.inl hacc
            · rw [if_neg hz] at hacc
              by_cases ht : t = p.1
              · subst ht
                rw [mapGet_mapSet_self] at hacc
                exact Or.inr ⟨p.2, d, List.mem_cons_self p rest, hden, hz, (Option.some_inj.1 hacc).symm⟩
              · rw [mapGet_mapSet_ne _ _ _ _ ht] at hacc
                exact Or.inl hacc
      · exact Or.inr ⟨av, d, List.mem_cons_of_mem _ hmem, hd, hdz, hv⟩

/-- C2: the output of `ratioSeries(a, b, m)` contains no timestamp absent
from `a`, none absent from `b`, and none where the `b` value is `0`; at
every timestamp it does contain, the value is `(a[t] / b[t]) * m`. -/
theorem ratioSeries_domain_and_values (a b : SeriesMap) (m : JSNum) (t : Int) (v : JSNum)
    (hnd : (List.map Prod.fst a).Nodup)
    (h : mapGet (ratioSeries a b m) t = some v) :
    ∃ av bv, mapGet a t = some av ∧ mapGet b t = some bv ∧ bv ≠ fin 0 ∧
      v = JSNum.mul (JSNum.div av bv) m := by
  rcases ratio_fold_mem b m a [] t v h with h0 | ⟨av, d, hmem, hd, hdz, hv⟩
  · simp [mapGet] at h0
  · exact ⟨av, d, mapGet_eq_some_of_mem_nodup _ _ _ hnd hmem, hd, hdz, hv⟩

/-- Witness for C2 at a concrete input: `a = [1 ↦ 6]`, `b = [1 ↦ 3]`,
multiplier `2`, where the output holds `4` at timestamp `1`. -/
theorem ratioSeries_domain_and_values_witness :
    ∃ av bv, mapGet [((1 : Int), fin 6)] 1 = some av ∧
      mapGet [((1 : Int), fin 3)] 1 = some bv ∧ bv ≠ fin 0 ∧
      fin 4 = JSNum.mul (JSNum.div av bv) (fin 2) :=
  ratioSeries_domain_and_values [((1 : Int), fin 6)] [((1 : Int), fin 3)] (fin 2) 1 (fin 4)
    (by decide) (by norm_num [ratioSeries, ratioStep, mapGet, mapSet, JSNum.div, JSNum.mul])

theorem diff_fold_no_key (b : SeriesMap) (l : List (Int × JSNum)) (out : SeriesMap)
    (t : Int) (h : ∀ av, (t, av) ∉ l) :
    mapGet (l.foldl (diffStep b) out) t = mapGet out t := by
  induction l generalizing out with
  | nil => rfl
  | cons p rest ih =>
      rw [List.foldl_cons]
      have ht : p.1 ≠ t := by
        intro he
        exact h p.2 (by rw [← he]; exact List.mem_cons_self p rest)
      rw [ih _ (fun av hav => h av (List.mem_cons_of_mem _ hav))]
      cases hb : mapGet b p.1 with
      | none => simp only [diffStep, hb]
      | some bv =>
          simp only [diffStep, hb]
          exact mapGet_mapSet_ne _ _ _ _ (Ne.symm ht)

theorem diff_fold_b_none (b : SeriesMap) (l : List (Int × JSNum)) (out : SeriesMap)
    (t : Int) (h : mapGet b t = none) :
    mapGet (l.foldl (diffStep b) out) t = mapGet out t := by
  induction l generalizing out with
  | nil => rfl
  | cons p rest ih =>
      rw [List.foldl_cons, ih]
      by_cases ht : p.1 = t
      · rw [show diffStep b out p = out by simp only [diffStep, ht, h]]
      · cases hb : mapGet b p.1 with
        | none => simp only [diffStep, hb]
        | some bv =>
            simp only [diffStep, hb]
            exact mapGet_mapSet_ne _ _ _ _ (fun he => ht he.symm)

theorem diff_fold_present (b : SeriesMap) (l : List (Int × JSNum)) (out : SeriesMap)
    (t : Int) (av bv : JSNum) (hnd : (List.map Prod.fst l).Nodup)
    (hmem : (t, av) ∈ l) (hb : mapGet b t = some bv) :
    mapGet (l.foldl (diffStep b) out) t = some (JSNum.sub av bv) := by
  induction l generalizing out with
  | nil => simp at hmem
  | cons p rest ih =>
      simp only [List.map_cons, List.nodup_cons] at hnd
      rw [List.foldl_cons]
      rcases List.mem_cons.1 hmem with he | hm
      · have hp1 : p.1 = t := by rw [← he]
        have hp2 : p.2 = av := by rw [← he]
        have hnot : ∀ w, (t, w) ∉ rest := by
          intro w hw
          exact hnd.1 (by rw [hp1]; exact List.mem_map.2 ⟨(t, w), hw, rfl⟩)
        rw [diff_fold_no_key b rest _ t hnot]
        simp only [diffStep, hp1, hb, hp2]
        exact mapGet_mapSet_self _ _ _
      · exact ih _ hnd.2 hm

/-- C6: the domain of `diffSeries(a, b)` is exactly the intersection of the
timestamp sets of `a` and `b`, and at each common timestamp the value is
`a[t] - b[t]`. -/
theorem diffSeries_domain_exact (a b : SeriesMap)
    (hnd : (List.map Prod.fst a).Nodup) (t : Int) :
    (∀ av bv, mapGet a t = some av → mapGet b t = some bv →
        mapGet (diffSeries a b) t = some (JSNum.sub av bv))
    ∧ (mapGet a t = none → mapGet (diffSeries a b) t = none)
    ∧ (mapGet b t = none → mapGet (diffSeries a b) t = none) := by
  refine ⟨?_, ?_, ?_⟩
  · intro av bv ha hb
    exact diff_fold_present b a [] t av bv hnd (mem_of_mapGet_eq_some a t av ha) hb
  · intro ha
    have h := (mapGet_eq_none_iff a t).1 ha
    rw [diffSeries, diff_fold_no_key b a [] t h]
    rfl
  · intro hb
    rw [diffSeries, diff_fold_b_none b a [] t hb]
    rfl

/-- Witness for C6 at a concrete input: `a = [1 ↦ 5, 4 ↦ 9]`,
`b = [1 ↦ 2, 3 ↦ 7]`. -/
theorem diffSeries_domain_exact_witness :
    mapGet (diffSeries [((1 : Int), fin 5), (4, fin 9)] [((1 : Int), fin 2), (3, fin 7)]) 1 =
        some (JSNum.sub (fin 5) (fin 2))
      ∧ mapGet (diffSeries [((1 : Int), fin 5), (4, fin 9)] [((1 : Int), fin 2), (3, fin 7)]) 4 =
        none := by
  constructor
  · exact (diffSeries_domain_exact [(1, fin 5), (4, fin 9)] [(1, fin 2), (3, fin 7)]
      (by decide) 1).1 (fin 5) (fin 2) (by decide) (by decide)
  · exact (diffSeries_domain_exact [(1, fin 5), (4, fin 9)] [(1, fin 2), (3, fin 7)]
      (by decide) 4).2.2 (by decide)

theorem dropWhile_eq_self_of_all_false {p : Char → Bool} (l : List Char)
    (h : ∀ c ∈ l, p c = false) : l.dropWhile p = l := by
  cases l with
  | nil => rfl
  | cons c rest =>
      rw [List.dropWhile_cons, h c (List.mem_cons_self c rest)]
      simp

theorem trimChars_eq_self (l : List Char) (h : ∀ c ∈ l, jsIsSpace c = false) :
    trimChars l = l := by
  unfold trimChars
  rw [dropWhile_eq_self_of_all_false l h,
    dropWhile_eq_self_of_all_false l.reverse (fun c hc => h c (List.mem_reverse.1 hc)),
    List.reverse_reverse]

theorem digit_not_space (c : Char) (h : isAsciiDigit c = true) : jsIsSpace c = false := by
  unfold isAsciiDigit at h
  simp only [Bool.and_eq_true, decide_eq_true_eq] at h
  unfold jsIsSpace
  simp only [Bool.or_eq_false_iff, decide_eq_false_iff_not]
  refine ⟨⟨⟨?_, ?_⟩, ?_⟩, ?_⟩ <;> intro he <;> subst he <;> revert h <;> decide

/-- C4 counterexample: the string `"0m"` matches the `<int>[mhd]` pattern
(`parseWindowMs` parses it to `0` milliseconds), yet resolving the window
rejects it (`!windowMs` is true for `0`), instead of producing
`start = end - 0`. -/
theorem resolveStart_zero_window_counterexample :
    parseWindowMs (String.toList "0m") = some 0
      ∧ resolveStartNoFrom 1000 (some (String.toList "0m")) = none
      ∧ resolveStartNoFrom 1000 (some (String.toList "0m")) ≠
          some (1000 - (0 : Int) * msPerUnit 'm') := by
  refine ⟨by decide, by decide, by decide⟩

/-- C4 (amended): for every string of the form `<int>[mhd]` whose integer
part is non-zero and every fixed end instant, resolving the window with no
explicit start yields `start = end - value * msPerUnit unit` exactly, with
`m` counting 60000 ms, `h` 3600000 ms and `d` 86400000 ms. -/
theorem resolveStart_matches_duration (endMs : Int) (ds : List Char) (u : Char)
    (hds : ds ≠ []) (hdig : ds.all isAsciiDigit = true)
    (hu : u = 'm' ∨ u = 'h' ∨ u = 'd') (hpos : digitsVal ds ≠ 0) :
    resolveStartNoFrom endMs (some (ds ++ [u])) =
      some (endMs - (digitsVal ds : Int) * msPerUnit u) := by
  have hne : ds ++ [u] ≠ [] := by simp
  have hnospace : ∀ c ∈ ds ++ [u], jsIsSpace c = false := by
    intro c hc
    rcases List.mem_append.1 hc with hc | hc
    · exact digit_not_space c (List.all_eq_true.1 hdig c hc)
    · rw [List.mem_singleton.1 hc]
      rcases hu with h | h | h <;> subst h <;> decide
  have hparse : parseWindowMs (ds ++ [u]) = some ((digitsVal ds : Int) * msPerUnit u) := by
    unfold parseWindowMs
    rw [trimChars_eq_self _ hnospace]
    simp only [List.getLast?_concat, List.dropLast_concat]
    have hcond : ds ≠ [] ∧ ds.all isAsciiDigit = true := ⟨hds, hdig⟩
    rw [if_pos hcond]
    rcases hu with h | h | h <;> subst h <;> simp [msPerUnit]
  have hms : (digitsVal ds : Int) * msPerUnit u ≠ 0 := by
    have h1 : (digitsVal ds : Int) ≠ 0 := Int.natCast_ne_zero.2 hpos
    have h2 : msPerUnit u ≠ 0 := by
      rcases hu with h | h | h <;> subst h <;> decide
    exact mul_ne_zero h1 h2
  unfold resolveStartNoFrom
  simp only [if_neg hne, hparse]
  rw [if_neg hms]

/-- Witness for C4 at a concrete input: window `"2h"` with end instant
`10000000` resolves to `10000000 - 7200000`. -/
theorem resolveStart_matches_duration_witness :
    resolveStartNoFrom 10000000 (some (String.toList "2h")) =
      some (10000000 - ((2 : Nat) : Int) * msPerUnit 'h') :=
  resolveStart_matches_duration 10000000 ['2'] 'h' (by decide) (by decide)
    (Or.inr (Or.inl rfl)) (by decide)

/-- C5: a summary whose cluster CPU waste average is exactly 30 fires the
moderate-waste rule (the strict `> 15` bracket), not the broad-reduction
rule, because the high-waste rule is strictly `> 30`. -/
theorem cpuWaste_boundary_moderate (s : SeriesStats) (h : s.avg = fin 30) :
    cpuWasteRule (some s) = some CpuWasteRec.moderate := by
  simp only [cpuWasteRule, h, JSNum.gt]
  norm_num

/-- Witness for C5 at a concrete summary with average exactly 30. -/
theorem cpuWaste_boundary_moderate_witness :
    cpuWasteRule (some ⟨10, fin 28, fin 30, fin 32, fin 29⟩) = some CpuWasteRec.moderate :=
  cpuWaste_boundary_moderate ⟨10, fin 28, fin 30, fin 32, fin 29⟩ rfl

/-- C8: a query whose provider response contains zero series is soft: the
aggregated raw series is the empty map, its summary statistics are `null`,
and the report renders the metric as `name: n/a` rather than as a zero. -/
theorem emptySeries_soft (name unit : String) :
    aggregateSeriesByTimestamp [] = []
      ∧ statsFromMap [] = none
      ∧ renderLine name none unit = name ++ ": n/a" :=
  ⟨rfl, rfl, rfl⟩

theorem addPoint_fold_filter_some (l : List DDPoint) (pts : SeriesMap) :
    l.foldl addPoint pts = (l.filter (fun p => p.2.isSome)).foldl addPoint pts := by
  induction l generalizing pts with
  | nil => rfl
  | cons p rest ih =>
      cases hp : p.2 with
      | none =>
          rw [List.foldl_cons, show addPoint pts p = pts by simp [addPoint, hp],
            List.filter_cons, if_neg (by simp [hp] : ¬(p.2.isSome = true))]
          exact ih pts
      | some v =>
          rw [List.foldl_cons, List.filter_cons,
            if_pos (by simp [hp] : p.2.isSome = true), List.foldl_cons]
          exact ih (addPoint pts p)

theorem agg_fold_filter (series : List (List DDPoint)) (pts : SeriesMap) :
    series.foldl (fun pts pl => pl.foldl addPoint pts) pts =
      (series.map (fun pl => pl.filter (fun p => p.2.isSome))).foldl
        (fun pts pl => pl.foldl addPoint pts) pts := by
  induction series generalizing pts with
  | nil => rfl
  | cons pl rest ih =>
      rw [List.map_cons, List.foldl_cons, List.foldl_cons, ← addPoint_fold_filter_some,
        ih]

theorem agg_fold_all_empty (series : List (List DDPoint)) (pts : SeriesMap)
    (h : ∀ pl ∈ series, pl = []) :
    series.foldl (fun pts pl => pl.foldl addPoint pts) pts = pts := by
  induction series generalizing pts with
  | nil => rfl
  | cons pl rest ih =>
      rw [List.foldl_cons, h pl (List.mem_cons_self pl rest)]
      exact ih pts (fun q hq => h q (List.mem_cons_of_mem _ hq))

/-- C10: samples whose value is `null` are dropped entirely at ingestion:
the aggregation of a response equals the aggregation of the response with
all null-valued points removed (so a null sample never changes the sum
contributed by other series at its timestamp), and a response whose points
are all null-valued aggregates to the empty series, not to zeros. -/
theorem aggregate_drops_null_samples (series : List (List DDPoint)) :
    aggregateSeriesByTimestamp series =
        aggregateSeriesByTimestamp (series.map (fun pl => pl.filter (fun p => p.2.isSome)))
      ∧ ((∀ pl ∈ series, ∀ p ∈ pl, p.2 = none) → aggregateSeriesByTimestamp series = []) := by
  constructor
  · exact agg_fold_filter series []
  · intro h
    rw [show aggregateSeriesByTimestamp series =
        (series.map (fun pl => pl.filter (fun p => p.2.isSome))).foldl
          (fun pts pl => pl.foldl addPoint pts) [] from agg_fold_filter series []]
    apply agg_fold_all_empty
    intro pl hpl
    rcases List.mem_map.1 hpl with ⟨pl0, hpl0, rfl⟩
    apply List.filter_eq_nil_iff.2
    intro p hp
    simp [h pl0 hpl0 p hp]

/-- Witness for C10: a response consisting of one series with two
null-valued points aggregates to the empty map. -/
theorem aggregate_drops_null_samples_witness :
    aggregateSeriesByTimestamp [[((5 : Int), none), ((6 : Int), none)]] = [] :=
  (aggregate_drops_null_samples [[((5 : Int), none), ((6 : Int), none)]]).2 (by decide)

theorem jsOr0_some_fin (s : ℚ) : jsOr0 (some (fin s)) = fin s := by
  by_cases h : s = 0 <;> simp [jsOr0, h]

theorem sumRats_cons_fin (q : ℚ) (l : List JSNum) :
    sumRats (fin q :: l) = q + sumRats l := by
  simp [sumRats, List.filterMap_cons, JSNum.toRat]

theorem agg_fold_flatten (series : List (List DDPoint)) (pts : SeriesMap) :
    series.foldl (fun pts pl => pl.foldl addPoint pts) pts =
      series.flatten.foldl addPoint pts := by
  induction series generalizing pts with
  | nil => rfl
  | cons pl rest ih =>
      rw [List.foldl_cons, List.flatten_cons, List.foldl_append, ih]

theorem addPoint_fold_get (l : List DDPoint) (t : Int) (pts : SeriesMap)
    (hfin : ∀ v ∈ samplesAt l t, v.isFinite = true) :
    (∀ s : ℚ, mapGet pts t = some (fin s) →
        mapGet (l.foldl addPoint pts) t = some (fin (s + sumRats (samplesAt l t))))
    ∧ (mapGet pts t = none →
        mapGet (l.foldl addPoint pts) t =
          if samplesAt l t = [] then none else some (fin (sumRats (samplesAt l t)))) := by
  induction l generalizing pts with
  | nil =>
      constructor
      · intro s hs
        simpa [samplesAt, sumRats] using hs
      · intro h
        simpa [samplesAt, sumRats] using h
  | cons p rest ih =>
      by_cases hpt : p.1 = t
      · cases hp : p.2 with
        | none =>
            have hsamp : samplesAt (p :: rest) t = samplesAt rest t := by
              simp [samplesAt, List.filterMap_cons, hp]
            have hfin2 : ∀ v ∈ samplesAt rest t, v.isFinite = true := by
              intro v hv
              exact hfin v (by rw [hsamp]; exact hv)
            rw [List.foldl_cons, show addPoint pts p = pts by simp [addPoint, hp], hsamp]
            exact ih pts hfin2
        | some v =>
            have hsamp : samplesAt (p :: rest) t = v :: samplesAt rest t := by
              simp [samplesAt, List.filterMap_cons, hpt, hp]
            have hvfin : v.isFinite = true :=
              hfin v (by rw [hsamp]; exact List.mem_cons_self _ _)
            have hfin2 : ∀ w ∈ samplesAt rest t, w.isFinite = true := by
              intro w hw
              exact hfin w (by rw [hsamp]; exact List.mem_cons_of_mem _ hw)
            cases v with
            | fin q =>
                rw [List.foldl_cons, hsamp]
                constructor
                · intro s hs
                  have hstep : addPoint pts p = mapSet pts t (fin (s + q)) := by
                    simp [addPoint, hp, hpt, hs, jsOr0_some_fin, JSNum.add]
                  have hget : mapGet (addPoint pts p) t = some (fin (s + q)) := by
                    rw [hstep]
                    exact mapGet_mapSet_self _ _ _
                  rw [(ih (addPoint pts p) hfin2).1 (s + q) hget, sumRats_cons_fin]
                  ring_nf
                · intro hn
                  have hstep : addPoint pts p = mapSet pts t (fin (0 + q)) := by
                    simp [addPoint, hp, hpt, hn, jsOr0, JSNum.add]
                  have hget : mapGet (addPoint pts p) t = some (fin (0 + q)) := by
                    rw [hstep]
                    exact mapGet_mapSet_self _ _ _
                  rw [(ih (addPoint pts p) hfin2).1 (0 + q) hget, if_neg (List.cons_ne_nil _ _),
                    sumRats_cons_fin]
                  ring_nf
            | nan => simp [JSNum.isFinite] at hvfin
            | inf => simp [JSNum.isFinite] at hvfin
            | negInf => simp [JSNum.isFinite] at hvfin
      · have hsamp : samplesAt (p :: rest) t = samplesAt rest t := by
          simp [samplesAt, List.filterMap_cons, hpt]
        have hfin2 : ∀ v ∈ samplesAt rest t, v.isFinite = true := by
          intro v hv
          exact hfin v (by rw [hsamp]; exact hv)
        have hget : mapGet (addPoint pts p) t = mapGet pts t := by
          cases hp : p.2 with
          | none => simp [addPoint, hp]
          | some v =>
              simp only [addPoint, hp]
              exact mapGet_mapSet_ne _ _ _ _ (fun he => hpt he.symm)
        rw [List.foldl_cons, hsamp]
        constructor
        · intro s hs
          exact (ih (addPoint pts p) hfin2).1 s (by rw [hget]; exact hs)
        · intro hn
          exact (ih (addPoint pts p) hfin2).2 (by rw [hget]; exact hn)

/-- C7: for a provider response (finite sample values), the aggregated
series holds, at each timestamp, the sum of the values of exactly those
component samples present at that timestamp, and holds nothing (rather than
zero) at a timestamp where no component has a sample. -/
theorem aggregate_sums_exact_present (series : List (List DDPoint)) (t : Int)
    (hfin : ∀ v ∈ seriesSamplesAt series t, v.isFinite = true) :
    mapGet (aggregateSeriesByTimestamp series) t =
      if seriesSamplesAt series t = [] then none
      else some (fin (sumRats (seriesSamplesAt series t))) := by
  rw [show aggregateSeriesByTimestamp series = series.flatten.foldl addPoint [] from
    agg_fold_flatten series []]
  exact (addPoint_fold_get series.flatten t [] hfin).2 rfl

/-- Witness for C7: two component series, one holding `2` and the other `3`
at timestamp 1 (plus a null point), aggregate to the stated sum form at
timestamp 1. -/
theorem aggregate_sums_exact_present_witness :
    mapGet (aggregateSeriesByTimestamp
        [[((1 : Int), some (fin 2))], [((1 : Int), some (fin 3)), ((2 : Int), none)]]) 1 =
      if seriesSamplesAt
          [[((1 : Int), some (fin 2))], [((1 : Int), some (fin 3)), ((2 : Int), none)]] 1 = [] then
        none
      else
        some (fin (sumRats (seriesSamplesAt
          [[((1 : Int), some (fin 2))], [((1 : Int), some (fin 3)), ((2 : Int), none)]] 1))) :=
  aggregate_sums_exact_present
    [[((1 : Int), some (fin 2))], [((1 : Int), some (fin 3)), ((2 : Int), none)]] 1 (by decide)

theorem valid_get_some (den : SeriesMap) (p : Int × JSNum) (h : validEntry den p = true) :
    ∃ d, mapGet den p.1 = some d ∧ d.isFinite = true ∧ d ≠ fin 0 ∧ p.2.isFinite = true := by
  unfold validEntry at h
  cases hd : mapGet den p.1 with
  | none => simp only [hd] at h; simp at h
  | some d =>
      simp only [hd, Bool.and_eq_true, Bool.not_eq_true', decide_eq_false_iff_not] at h
      exact ⟨d, rfl, h.2.1, h.2.2, h.1⟩

theorem peakStep_invalid (den : SeriesMap) (m : JSNum) (best : Option Peak)
    (p : Int × JSNum) (h : validEntry den p = false) :
    peakStep den m best p = best := by
  unfold validEntry at h
  cases hd : mapGet den p.1 with
  | none => simp [peakStep, hd]
  | some d =>
      simp only [hd] at h
      have h2 : (p.2.isFinite && d.isFinite && !decide (d = fin 0)) = false := by
        rw [Bool.and_assoc]
        exact h
      simp [peakStep, hd, h2]

theorem peakStep_valid_none (den : SeriesMap) (m : JSNum) (p : Int × JSNum) (d : JSNum)
    (hd : mapGet den p.1 = some d) (hv : validEntry den p = true) :
    peakStep den m none p = some ⟨p.1, JSNum.mul (JSNum.div p.2 d) m, p.2, d⟩ := by
  unfold validEntry at hv
  simp only [hd] at hv
  have h2 : (p.2.isFinite && d.isFinite && !decide (d = fin 0)) = true := by
    rw [Bool.and_assoc]
    exact hv
  simp [peakStep, hd, h2]

theorem peakStep_valid_some (den : SeriesMap) (m : JSNum) (b0 : Peak) (p : Int × JSNum)
    (d : JSNum) (hd : mapGet den p.1 = some d) (hv : validEntry den p = true) :
    peakStep den m (some b0) p =
      if JSNum.gt (JSNum.mul (JSNum.div p.2 d) m) b0.ratio then
        some ⟨p.1, JSNum.mul (JSNum.div p.2 d) m, p.2, d⟩
      else some b0 := by
  unfold validEntry at hv
  simp only [hd] at hv
  have h2 : (p.2.isFinite && d.isFinite && !decide (d = fin 0)) = true := by
    rw [Bool.and_assoc]
    exact hv
  simp [peakStep, hd, h2]

theorem entryRatio_eq (den : SeriesMap) (m : JSNum) (p : Int × JSNum) (d : JSNum)
    (hd : mapGet den p.1 = some d) :
    entryRatio den m p = JSNum.mul (JSNum.div p.2 d) m := by
  simp [entryRatio, hd]

theorem entryRatio_fin (den : SeriesMap) (μ : ℚ) (p : Int × JSNum)
    (h : validEntry den p = true) : ∃ r : ℚ, entryRatio den (fin μ) p = fin r := by
  obtain ⟨d, hd, hdf, hdz, hpf⟩ := valid_get_some den p h
  cases hp2 : p.2 with
  | fin n =>
      cases d with
      | fin dq =>
          have hdq : dq ≠ 0 := fun hq => hdz (by rw [hq])
          exact ⟨n / dq * μ, by simp [entryRatio, hd, hp2, JSNum.div, JSNum.mul, hdq]⟩
      | nan => simp [JSNum.isFinite] at hdf
      | inf => simp [JSNum.isFinite] at hdf
      | negInf => simp [JSNum.isFinite] at hdf
  | nan => rw [hp2] at hpf; simp [JSNum.isFinite] at hpf
  | inf => rw [hp2] at hpf; simp [JSNum.isFinite] at hpf
  | negInf => rw [hp2] at hpf; simp [JSNum.isFinite] at hpf

theorem gt_fin_iff (x y : ℚ) : JSNum.gt (fin x) (fin y) = true ↔ y < x := by
  simp [JSNum.gt]

theorem peak_fold_filter (den : SeriesMap) (m : JSNum) (l : List (Int × JSNum))
    (best : Option Peak) :
    l.foldl (peakStep den m) best =
      (l.filter (fun p => p.2.isFinite)).foldl (peakStep den m) best := by
  induction l generalizing best with
  | nil => rfl
  | cons p rest ih =>
      by_cases hf : p.2.isFinite = true
      · rw [List.foldl_cons, List.filter_cons, if_pos hf, List.foldl_cons]
        exact ih _
      · have hf2 : p.2.isFinite = false := by simpa using hf
        have hstep : peakStep den m best p = best := by
          apply peakStep_invalid
          unfold validEntry
          rw [hf2]
          simp
        rw [List.foldl_cons, hstep, List.filter_cons, if_neg hf]
        exact ih best

theorem peak_fold_fin_props (den : SeriesMap) (μ : ℚ) (l : List (Int × JSNum)) :
    ∀ best : Option Peak,
      (∀ b, best = some b → b.numerator.isFinite = true ∧ b.denominator.isFinite = true ∧
          b.denominator ≠ fin 0 ∧ b.ratio.isFinite = true) →
      ∀ pk, l.foldl (peakStep den (fin μ)) best = some pk →
        pk.numerator.isFinite = true ∧ pk.denominator.isFinite = true ∧
          pk.denominator ≠ fin 0 ∧ pk.ratio.isFinite = true := by
  induction l with
  | nil => intro best hb pk h; exact hb pk h
  | cons p rest ih =>
      intro best hb pk h
      rw [List.foldl_cons] at h
      refine ih (peakStep den (fin μ) best p) ?_ pk h
      intro b hbb
      by_cases hv : validEntry den p = true
      · obtain ⟨d, hd, hdf, hdz, hpf⟩ := valid_get_some den p hv
        obtain ⟨r, hr⟩ := entryRatio_fin den μ p hv
        rw [entryRatio_eq den (fin μ) p d hd] at hr
        cases best with
        | none =>
            rw [peakStep_valid_none den (fin μ) p d hd hv] at hbb
            obtain rfl := Option.some_inj.1 hbb
            exact ⟨hpf, hdf, hdz, by rw [show (⟨p.1, JSNum.mul (JSNum.div p.2 d) (fin μ), p.2, d⟩ :
              Peak).ratio = JSNum.mul (JSNum.div p.2 d) (fin μ) from rfl, hr]; rfl⟩
        | some b0 =>
            rw [peakStep_valid_some den (fin μ) b0 p d hd hv] at hbb
            by_cases hg : JSNum.gt (JSNum.mul (JSNum.div p.2 d) (fin μ)) b0.ratio = true
            · rw [if_pos hg] at hbb
              obtain rfl := Option.some_inj.1 hbb
              exact ⟨hpf, hdf, hdz, by rw [show (⟨p.1, JSNum.mul (JSNum.div p.2 d) (fin μ), p.2, d⟩ :
                Peak).ratio = JSNum.mul (JSNum.div p.2 d) (fin μ) from rfl, hr]; rfl⟩
            · rw [if_neg hg] at hbb
              exact hb b hbb
      · have hv2 : validEntry den p = false := by simpa using hv
        rw [peakStep_invalid den (fin μ) best p hv2] at hbb
        exact hb b hbb

/-- C9: a non-null result of `peakRatioDetails` always has a finite
numerator value, a finite non-zero denominator value and a finite ratio,
because timestamps whose numerator value is non-finite are skipped during
the scan — indeed the scan computes the same result on the numerator series
with its non-finite entries removed. -/
theorem peak_result_finite (a b : SeriesMap) (μ : ℚ) :
    (∀ pk, peakRatioDetails a b (fin μ) = some pk →
        pk.numerator.isFinite = true ∧ pk.denominator.isFinite = true ∧
          pk.denominator ≠ fin 0 ∧ pk.ratio.isFinite = true)
    ∧ peakRatioDetails a b (fin μ) =
        peakRatioDetails (a.filter (fun p => p.2.isFinite)) b (fin μ) := by
  constructor
  · exact peak_fold_fin_props b μ a none (fun b2 h => Option.noConfusion h)
  · exact peak_fold_filter b (fin μ) a none

/-- Witness for C9 at a concrete input: numerator `[0 ↦ 2]`, denominator
`[0 ↦ 1]`, multiplier `1`. -/
theorem peak_result_finite_witness :
    (fin (2 : ℚ)).isFinite = true ∧ (fin (1 : ℚ)).isFinite = true ∧
      fin (1 : ℚ) ≠ fin 0 ∧ (fin (2 : ℚ)).isFinite = true :=
  (peak_result_finite [((0 : Int), fin 2)] [((0 : Int), fin 1)] 1).1
    ⟨0, fin 2, fin 2, fin 1⟩
    (by norm_num [peakRatioDetails, peakStep, mapGet, JSNum.div, JSNum.mul, JSNum.isFinite])

theorem peakStep_isSome_of_valid (den : SeriesMap) (m : JSNum) (best : Option Peak)
    (p : Int × JSNum) (d : JSNum) (hd : mapGet den p.1 = some d)
    (hv : validEntry den p = true) :
    ∃ pk2, peakStep den m best p = some pk2 := by
  cases best with
  | none => exact ⟨_, peakStep_valid_none den m p d hd hv⟩
  | some b0 =>
      rw [peakStep_valid_some den m b0 p d hd hv]
      by_cases hg : JSNum.gt (JSNum.mul (JSNum.div p.2 d) m) b0.ratio = true
      · rw [if_pos hg]
        exact ⟨_, rfl⟩
      · rw [if_neg hg]
        exact ⟨b0, rfl⟩

theorem peak_fold_none_iff (den : SeriesMap) (m : JSNum) (l : List (Int × JSNum)) :
    ∀ best : Option Peak,
      (l.foldl (peakStep den m) best = none ↔
        best = none ∧ ∀ p ∈ l, validEntry den p = false) := by
  induction l with
  | nil => intro best; simp
  | cons p rest ih =>
      intro best
      rw [List.foldl_cons]
      by_cases hv : validEntry den p = true
      · obtain ⟨d, hd, -, -, -⟩ := valid_get_some den p hv
        obtain ⟨pk2, hpk2⟩ := peakStep_isSome_of_valid den m best p d hd hv
        rw [hpk2, ih]
        constructor
        · rintro ⟨h1, -⟩
          exact Option.noConfusion h1
        · rintro ⟨-, hall⟩
          have h2 := hall p (List.mem_cons_self p rest)
          rw [hv] at h2
          exact Bool.noConfusion h2
      · have hv2 : validEntry den p = false := by simpa using hv
        rw [peakStep_invalid den m best p hv2, ih]
        constructor
        · rintro ⟨h1, hall⟩
          refine ⟨h1, fun q hq => ?_⟩
          rcases List.mem_cons.1 hq with rfl | hm
          · exact hv2
          · exact hall q hm
        · rintro ⟨h1, hall⟩
          exact ⟨h1, fun q hq => hall q (List.mem_cons_of_mem _ hq)⟩

theorem peak_fold_some_spec (den : SeriesMap) (μ : ℚ) (l : List (Int × JSNum)) :
    ∀ best : Option Peak,
      (∀ b, best = some b → ∃ rb : ℚ, b.ratio = fin rb) →
      ∀ pk, l.foldl (peakStep den (fin μ)) best = some pk →
        (best = some pk ∧
          ∀ p ∈ l, validEntry den p = true →
            JSNum.gt (entryRatio den (fin μ) p) pk.ratio = false)
        ∨ ∃ l1 p l2, l = l1 ++ p :: l2 ∧ validEntry den p = true ∧
            pk.ts = p.1 ∧ pk.numerator = p.2 ∧ mapGet den p.1 = some pk.denominator ∧
            pk.ratio = entryRatio den (fin μ) p ∧
            (∀ b, best = some b → JSNum.gt pk.ratio b.ratio = true) ∧
            (∀ q ∈ l1, validEntry den q = true →
              JSNum.gt pk.ratio (entryRatio den (fin μ) q) = true) ∧
            (∀ q ∈ l2, validEntry den q = true →
              JSNum.gt (entryRatio den (fin μ) q) pk.ratio = false) := by
  induction l with
  | nil =>
      intro best hbf pk h
      exact Or.inl ⟨h, by simp⟩
  | cons p rest ih =>
      intro best hbf pk h
      rw [List.foldl_cons] at h
      by_cases hv : validEntry den p = true
      case neg =>
        have hv2 : validEntry den p = false := by simpa using hv
        rw [peakStep_invalid den (fin μ) best p hv2] at h
        rcases ih best hbf pk h with ⟨hb, hall⟩ |
          ⟨l1, q, l2, heq, hvq, hts, hnum, hden, hr, hbc, hl1, hl2⟩
        · refine Or.inl ⟨hb, fun q hq hvq => ?_⟩
          rcases List.mem_cons.1 hq with rfl | hm
          · rw [hv2] at hvq
            exact Bool.noConfusion hvq
          · exact hall q hm hvq
        · refine Or.inr ⟨p :: l1, q, l2, by rw [heq, List.cons_append], hvq, hts, hnum,
            hden, hr, hbc, ?_, hl2⟩
          intro q2 hq2 hvq2
          rcases List.mem_cons.1 hq2 with rfl | hm
          · rw [hv2] at hvq2
            exact Bool.noConfusion hvq2
          · exact hl1 q2 hm hvq2
      case pos =>
        obtain ⟨d, hd, hdf, hdz, hpf⟩ := valid_get_some den p hv
        have her : entryRatio den (fin μ) p = JSNum.mul (JSNum.div p.2 d) (fin μ) :=
          entryRatio_eq den (fin μ) p d hd
        obtain ⟨rq, hrq⟩ := entryRatio_fin den μ p hv
        have hnpf : ∀ b,
            some (⟨p.1, JSNum.mul (JSNum.div p.2 d) (fin μ), p.2, d⟩ : Peak) = some b →
            ∃ rb : ℚ, b.ratio = fin rb := by
          rintro b hb
          obtain rfl := Option.some_inj.1 hb
          exact ⟨rq, by rw [show (⟨p.1, JSNum.mul (JSNum.div p.2 d) (fin μ), p.2, d⟩ :
            Peak).ratio = JSNum.mul (JSNum.div p.2 d) (fin μ) from rfl, ← her, hrq]⟩
        cases best with
        | none =>
            rw [peakStep_valid_none den (fin μ) p d hd hv] at h
            rcases ih _ hnpf pk h with ⟨hb, hall⟩ |
              ⟨l1, q, l2, heq, hvq, hts, hnum, hden, hr, hbc, hl1, hl2⟩
            · obtain rfl := Option.some_inj.1 hb
              refine Or.inr ⟨[], p, rest, rfl, hv, rfl, rfl, hd, her.symm,
                fun b hb2 => Option.noConfusion hb2, by simp, hall⟩
            · refine Or.inr ⟨p :: l1, q, l2, by rw [heq, List.cons_append], hvq, hts, hnum,
                hden, hr, fun b hb2 => Option.noConfusion hb2, ?_, hl2⟩
              intro q2 hq2 hvq2
              rcases List.mem_cons.1 hq2 with rfl | hm
              · rw [her]
                exact hbc _ rfl
              · exact hl1 q2 hm hvq2
        | some b0 =>
            rw [peakStep_valid_some den (fin μ) b0 p d hd hv] at h
            obtain ⟨rb0, hrb0⟩ := hbf b0 rfl
            by_cases hg : JSNum.gt (JSNum.mul (JSNum.div p.2 d) (fin μ)) b0.ratio = true
            · rw [if_pos hg] at h
              rcases ih _ hnpf pk h with ⟨hb, hall⟩ |
                ⟨l1, q, l2, heq, hvq, hts, hnum, hden, hr, hbc, hl1, hl2⟩
              · obtain rfl := Option.some_inj.1 hb
                refine Or.inr ⟨[], p, rest, rfl, hv, rfl, rfl, hd, her.symm, ?_, by simp, hall⟩
                rintro b hb2
                obtain rfl := Option.some_inj.1 hb2
                exact hg
              · obtain ⟨rpk, hrpk⟩ := entryRatio_fin den μ q hvq
                have hpkr : pk.ratio = fin rpk := hr.trans hrpk
                have hgt1 : JSNum.gt pk.ratio (JSNum.mul (JSNum.div p.2 d) (fin μ)) = true := by
                  have h2 := hbc _ rfl
                  rwa [show (⟨p.1, JSNum.mul (JSNum.div p.2 d) (fin μ), p.2, d⟩ :
                    Peak).ratio = JSNum.mul (JSNum.div p.2 d) (fin μ) from rfl] at h2
                refine Or.inr ⟨p :: l1, q, l2, by rw [heq, List.cons_append], hvq, hts, hnum,
                  hden, hr, ?_, ?_, hl2⟩
                · rintro b hb2
                  obtain rfl := Option.some_inj.1 hb2
                  rw [hpkr, hrb0, gt_fin_iff]
                  have h1 : rq < rpk := by
                    rw [hpkr, ← her, hrq, gt_fin_iff] at hgt1
                    exact hgt1
                  have h2 : rb0 < rq := by
                    rw [← her, hrq, hrb0, gt_fin_iff] at hg
                    exact hg
                  exact h2.trans h1
                · intro q2 hq2 hvq2
                  rcases List.mem_cons.1 hq2 with rfl | hm
                  · rw [her]
                    exact hgt1
                  · exact hl1 q2 hm hvq2
            · rw [if_neg hg] at h
              rcases ih _ hbf pk h with ⟨hb, hall⟩ |
                ⟨l1, q, l2, heq, hvq, hts, hnum, hden, hr, hbc, hl1, hl2⟩
              · obtain rfl := Option.some_inj.1 hb
                refine Or.inl ⟨rfl, fun q2 hq2 hvq2 => ?_⟩
                rcases List.mem_cons.1 hq2 with rfl | hm
                · rw [her]
                  simpa using hg
                · exact hall q2 hm hvq2
              · obtain ⟨rpk, hrpk⟩ := entryRatio_fin den μ q hvq
                have hpkr : pk.ratio = fin rpk := hr.trans hrpk
                have hb0lt : rb0 < rpk := by
                  have h2 := hbc b0 rfl
                  rw [hpkr, hrb0, gt_fin_iff] at h2
                  exact h2
                have hqle : rq ≤ rb0 := by
                  rw [← her, hrq, hrb0, gt_fin_iff] at hg
                  exact not_lt.1 hg
                refine Or.inr ⟨p :: l1, q, l2, by rw [heq, List.cons_append], hvq, hts, hnum,
                  hden, hr, hbc, ?_, hl2⟩
                intro q2 hq2 hvq2
                rcases List.mem_cons.1 hq2 with rfl | hm
                · rw [hpkr, hrq, gt_fin_iff]
                  exact lt_of_le_of_lt hqle hb0lt
                · exact hl1 q2 hm hvq2

/-- C3 counterexample: with numerator `[0 ↦ NaN]` and denominator
`[0 ↦ 1]`, timestamp 0 of the numerator has a finite, non-zero denominator
value, yet the locator returns `null` — the numerator value must also be
finite, contrary to the claim's null condition. -/
theorem peak_locator_counterexample :
    peakRatioDetails [((0 : Int), nan)] [((0 : Int), fin 1)] (fin 1) = none
      ∧ mapGet [((0 : Int), fin 1)] 0 = some (fin 1)
      ∧ (fin (1 : ℚ)).isFinite = true ∧ fin (1 : ℚ) ≠ fin 0 := by
  refine ⟨by decide, by decide, by decide, by decide⟩

/-- C3 (amended): the locator returns `null` exactly when no numerator
timestamp has a finite numerator value together with a present, finite,
non-zero denominator value; otherwise it returns the first numerator entry
attaining the maximal ratio over such timestamps (first encountered wins on
ties), carrying that timestamp's numerator and denominator values and their
ratio, and the capacity plan satisfies
`requiredDenominator(target) = peakNumerator / target` and
`scaleFactor(target) = requiredDenominator(target) / peakDenominator` for
the targets 0.8 and 0.7. -/
theorem peak_locator_and_capacity_spec :
    (∀ (a b : SeriesMap) (μ : ℚ),
        (peakRatioDetails a b (fin μ) = none ↔ ∀ p ∈ a, validEntry b p = false)
        ∧ ∀ pk, peakRatioDetails a b (fin μ) = some pk →
            ∃ l1 p l2, a = l1 ++ p :: l2 ∧ validEntry b p = true ∧
              pk.ts = p.1 ∧ pk.numerator = p.2 ∧ mapGet b p.1 = some pk.denominator ∧
              pk.ratio = entryRatio b (fin μ) p ∧
              (∀ q ∈ l1, validEntry b q = true →
                JSNum.gt pk.ratio (entryRatio b (fin μ) q) = true) ∧
              (∀ q ∈ l2, validEntry b q = true →
                JSNum.gt (entryRatio b (fin μ) q) pk.ratio = false))
    ∧ (∀ (req alloc : SeriesMap) (plan : CapacityPlan),
        capacityPlanning req alloc = some plan →
          plan.requiredAllocatableFor80Pct =
              JSNum.div plan.peakRequestedCores (fin (4 / 5 : ℚ))
            ∧ plan.requiredAllocatableFor70Pct =
              JSNum.div plan.peakRequestedCores (fin (7 / 10 : ℚ))
            ∧ plan.scaleFactorFor80Pct =
              JSNum.div plan.requiredAllocatableFor80Pct plan.allocatableAtPeakCores
            ∧ plan.scaleFactorFor70Pct =
              JSNum.div plan.requiredAllocatableFor70Pct plan.allocatableAtPeakCores) := by
  constructor
  · intro a b μ
    constructor
    · rw [show peakRatioDetails a b (fin μ) = a.foldl (peakStep b (fin μ)) none from rfl,
        (peak_fold_none_iff b (fin μ) a) none]
      simp
    · intro pk h
      rcases peak_fold_some_spec b μ a none (fun b2 hb2 => Option.noConfusion hb2) pk h with
        ⟨hb, -⟩ | ⟨l1, p, l2, heq, hv, hts, hnum, hden, hr, -, hl1, hl2⟩
      · exact Option.noConfusion hb
      · exact ⟨l1, p, l2, heq, hv, hts, hnum, hden, hr, hl1, hl2⟩
  · intro req alloc plan h
    unfold capacityPlanning at h
    cases hpk : peakRatioDetails req alloc (fin 100) with
    | none =>
        rw [hpk] at h
        exact Option.noConfusion h
    | some peak =>
        simp only [hpk] at h
        obtain rfl := Option.some_inj.1 h
        exact ⟨rfl, rfl, rfl, rfl⟩

/-- Witness for C3 at a concrete input: numerator `[1 ↦ 9]`, denominator
`[1 ↦ 10]`, multiplier `100`, whose peak is timestamp 1 with ratio 90. -/
theorem peak_locator_and_capacity_spec_witness :
    ∃ l1 p l2, ([((1 : Int), fin 9)] : SeriesMap) = l1 ++ p :: l2 ∧
      validEntry [((1 : Int), fin 10)] p = true ∧
      (⟨1, fin 90, fin 9, fin 10⟩ : Peak).ts = p.1 ∧
      (⟨1, fin 90, fin 9, fin 10⟩ : Peak).numerator = p.2 ∧
      mapGet [((1 : Int), fin 10)] p.1 =
        some (⟨1, fin 90, fin 9, fin 10⟩ : Peak).denominator ∧
      (⟨1, fin 90, fin 9, fin 10⟩ : Peak).ratio =
        entryRatio [((1 : Int), fin 10)] (fin 100) p ∧
      (∀ q ∈ l1, validEntry [((1 : Int), fin 10)] q = true →
        JSNum.gt (⟨1, fin 90, fin 9, fin 10⟩ : Peak).ratio
          (entryRatio [((1 : Int), fin 10)] (fin 100) q) = true) ∧
      (∀ q ∈ l2, validEntry [((1 : Int), fin 10)] q = true →
        JSNum.gt (entryRatio [((1 : Int), fin 10)] (fin 100) q)
          (⟨1, fin 90, fin 9, fin 10⟩ : Peak).ratio = false) :=
  (peak_locator_and_capacity_spec.1 [((1 : Int), fin 9)] [((1 : Int), fin 10)] 100).2
    ⟨1, fin 90, fin 9, fin 10⟩
    (by norm_num [peakRatioDetails, peakStep, mapGet, JSNum.div, JSNum.mul, JSNum.isFinite])

theorem statsFromMap_none (m : SeriesMap)
    (h : ((mapToSortedEntries m).map Prod.snd).filter JSNum.isFinite = []) :
    statsFromMap m = none := by
  unfold statsFromMap
  rw [h]

theorem statsFromMap_cons (m : SeriesMap) (v : JSNum) (vs : List JSNum)
    (h : ((mapToSortedEntries m).map Prod.snd).filter JSNum.isFinite = v :: vs) :
    statsFromMap m = some
      { samples := (v :: vs).length
        min := (v :: vs).foldl JSNum.jsMin JSNum.inf
        avg := JSNum.div ((v :: vs).foldl JSNum.add (fin 0)) (fin ((v :: vs).length : ℚ))
        max := (v :: vs).foldl JSNum.jsMax JSNum.negInf
        last := (v :: vs).getLast (List.cons_ne_nil v vs) } := by
  unfold statsFromMap
  rw [h]

theorem filter_isFinite_map_snd (l : List (Int × JSNum)) :
    (l.map Prod.snd).filter JSNum.isFinite =
      (l.filter (fun p => p.2.isFinite)).map Prod.snd := by
  induction l with
  | nil => rfl
  | cons p rest ih =>
      by_cases h : p.2.isFinite = true <;>
        simp [List.filter_cons, h, ih]

theorem filter_isFinite_eq_map_fin (l : List JSNum) :
    l.filter JSNum.isFinite = (l.filterMap JSNum.toRat).map fin := by
  induction l with
  | nil => rfl
  | cons v rest ih =>
      cases v <;>
        simp [List.filter_cons, List.filterMap_cons, JSNum.isFinite, JSNum.toRat, ih]

theorem foldl_jsMin_map_fin (rs : List ℚ) : ∀ a : ℚ,
    (rs.map fin).foldl JSNum.jsMin (fin a) = fin (rs.foldl min a) := by
  induction rs with
  | nil => intro a; rfl
  | cons r rest ih =>
      intro a
      rw [List.map_cons, List.foldl_cons, List.foldl_cons,
        show JSNum.jsMin (fin a) (fin r) = fin (min a r) from rfl]
      exact ih (min a r)

theorem foldl_jsMin_inf (rs : List ℚ) (r : ℚ) :
    ((r :: rs).map fin).foldl JSNum.jsMin JSNum.inf = fin (rs.foldl min r) := by
  rw [List.map_cons, List.foldl_cons,
    show JSNum.jsMin JSNum.inf (fin r) = fin r from rfl]
  exact foldl_jsMin_map_fin rs r

theorem foldl_jsMax_map_fin (rs : List ℚ) : ∀ a : ℚ,
    (rs.map fin).foldl JSNum.jsMax (fin a) = fin (rs.foldl max a) := by
  induction rs with
  | nil => intro a; rfl
  | cons r rest ih =>
      intro a
      rw [List.map_cons, List.foldl_cons, List.foldl_cons,
        show JSNum.jsMax (fin a) (fin r) = fin (max a r) from rfl]
      exact ih (max a r)

theorem foldl_jsMax_negInf (rs : List ℚ) (r : ℚ) :
    ((r :: rs).map fin).foldl JSNum.jsMax JSNum.negInf = fin (rs.foldl max r) := by
  rw [List.map_cons, List.foldl_cons,
    show JSNum.jsMax JSNum.negInf (fin r) = fin r from rfl]
  exact foldl_jsMax_map_fin rs r

theorem foldl_add_map_fin (rs : List ℚ) : ∀ a : ℚ,
    (rs.map fin).foldl JSNum.add (fin a) = fin (a + rs.sum) := by
  induction rs with
  | nil => intro a; simp
  | cons r rest ih =>
      intro a
      rw [List.map_cons, List.foldl_cons,
        show JSNum.add (fin a) (fin r) = fin (a + r) from rfl, ih (a + r), List.sum_cons]
      ring_nf

theorem foldl_min_le_init (l : List ℚ) : ∀ a : ℚ, l.foldl min a ≤ a := by
  induction l with
  | nil => intro a; exact le_refl a
  | cons x rest ih =>
      intro a
      rw [List.foldl_cons]
      exact le_trans (ih (min a x)) (min_le_left a x)

theorem foldl_min_le_mem (l : List ℚ) : ∀ (a x : ℚ), x ∈ l → l.foldl min a ≤ x := by
  induction l with
  | nil => intro a x hx; simp at hx
  | cons y rest ih =>
      intro a x hx
      rw [List.foldl_cons]
      rcases List.mem_cons.1 hx with rfl | hm
      · exact le_trans (foldl_min_le_init rest (min a x)) (min_le_right a x)
      · exact ih (min a y) x hm

theorem init_le_foldl_max (l : List ℚ) : ∀ a : ℚ, a ≤ l.foldl max a := by
  induction l with
  | nil => intro a; exact le_refl a
  | cons x rest ih =>
      intro a
      rw [List.foldl_cons]
      exact le_trans (le_max_left a x) (ih (max a x))

theorem mem_le_foldl_max (l : List ℚ) : ∀ (a x : ℚ), x ∈ l → x ≤ l.foldl max a := by
  induction l with
  | nil => intro a x hx; simp at hx
  | cons y rest ih =>
      intro a x hx
      rw [List.foldl_cons]
      rcases List.mem_cons.1 hx with rfl | hm
      · exact le_trans (le_max_right a x) (init_le_foldl_max rest (max a x))
      · exact ih (max a y) x hm

theorem length_mul_le_sum (l : List ℚ) (c : ℚ) (h : ∀ x ∈ l, c ≤ x) :
    (l.length : ℚ) * c ≤ l.sum := by
  induction l with
  | nil => simp
  | cons x rest ih =>
      rw [List.sum_cons, List.length_cons]
      push_cast
      have h1 : c ≤ x := h x (List.mem_cons_self x rest)
      have h2 := ih (fun y hy => h y (List.mem_cons_of_mem _ hy))
      nlinarith [h1, h2]

theorem sum_le_length_mul (l : List ℚ) (c : ℚ) (h : ∀ x ∈ l, x ≤ c) :
    l.sum ≤ (l.length : ℚ) * c := by
  induction l with
  | nil => simp
  | cons x rest ih =>
      rw [List.sum_cons, List.length_cons]
      push_cast
      have h1 : x ≤ c := h x (List.mem_cons_self x rest)
      have h2 := ih (fun y hy => h y (List.mem_cons_of_mem _ hy))
      nlinarith [h1, h2]

theorem sorted_key_le_getLast (l : List (Int × JSNum)) (h : List.Sorted tsLe l) :
    ∀ (hne : l ≠ []) (p : Int × JSNum), p ∈ l → p.1 ≤ (l.getLast hne).1 := by
  induction l with
  | nil => intro hne; exact absurd rfl hne
  | cons q rest ih =>
      intro hne p hp
      cases rest with
      | nil =>
          have hpq : p = q := by simpa using hp
          subst hpq
          exact le_refl _
      | cons r rest2 =>
          have hne2 : (r :: rest2) ≠ [] := List.cons_ne_nil r rest2
          rw [List.getLast_cons hne2]
          rcases List.mem_cons.1 hp with rfl | hm
          · exact (List.sorted_cons.1 h).1 _ (List.getLast_mem hne2)
          · exact ih (List.sorted_cons.1 h).2 hne2 p hm

/-- C1 (amended): `statsFromMap` returns `null` iff no value in the series
is finite; otherwise `min ≤ avg ≤ max` with all three finite, `avg` is the
arithmetic mean of the finite values, and `last` equals the value at the
maximum timestamp key among the entries whose value is finite. -/
theorem stats_summary_spec (m : SeriesMap) :
    (statsFromMap m = none ↔ ∀ p ∈ m, p.2.isFinite = false)
    ∧ ∀ s, statsFromMap m = some s →
        ∃ mn av mx : ℚ,
          s.min = fin mn ∧ s.avg = fin av ∧ s.max = fin mx ∧
          mn ≤ av ∧ av ≤ mx ∧
          s.samples = (finiteRats m).length ∧
          av = (finiteRats m).sum / ((finiteRats m).length : ℚ) ∧
          ∃ t lv, (t, lv) ∈ m ∧ s.last = lv ∧ lv.isFinite = true ∧
            ∀ q ∈ m, q.2.isFinite = true → q.1 ≤ t := by
  have hperm : (mapToSortedEntries m).Perm m := List.perm_insertionSort tsLe m
  constructor
  · constructor
    · intro h p hp
      by_contra hf
      have hf2 : p.2.isFinite = true := by simpa using hf
      have hmem : p ∈ mapToSortedEntries m := hperm.mem_iff.2 hp
      have hv : p.2 ∈ ((mapToSortedEntries m).map Prod.snd).filter JSNum.isFinite :=
        List.mem_filter.2 ⟨List.mem_map.2 ⟨p, hmem, rfl⟩, hf2⟩
      rcases hval : ((mapToSortedEntries m).map Prod.snd).filter JSNum.isFinite with
        _ | ⟨v, vs⟩
      · rw [hval] at hv
        simp at hv
      · rw [statsFromMap_cons m v vs hval] at h
        exact Option.noConfusion h
    · intro h
      apply statsFromMap_none
      apply List.filter_eq_nil_iff.2
      intro v hv
      rcases List.mem_map.1 hv with ⟨p, hp, rfl⟩
      rw [h p (hperm.mem_iff.1 hp)]
      simp
  · intro s hs
    rcases hval : ((mapToSortedEntries m).map Prod.snd).filter JSNum.isFinite with
      _ | ⟨v, vs⟩
    · rw [statsFromMap_none m hval] at hs
      exact Option.noConfusion hs
    · rw [statsFromMap_cons m v vs hval] at hs
      obtain rfl := Option.some_inj.1 hs
      have hfil : ((mapToSortedEntries m).map Prod.snd).filter JSNum.isFinite =
          (((mapToSortedEntries m).map Prod.snd).filterMap JSNum.toRat).map fin :=
        filter_isFinite_eq_map_fin _
      rcases hrs : ((mapToSortedEntries m).map Prod.snd).filterMap JSNum.toRat with
        _ | ⟨r, rrs⟩
      · rw [hrs] at hfil
        rw [hval] at hfil
        simp at hfil
      · have hvv : v :: vs = (r :: rrs).map fin := by rw [← hval, hfil, hrs]
        have hlenvv : (v :: vs).length = (r :: rrs).length := by
          rw [hvv, List.length_map]
        have hmin : (v :: vs).foldl JSNum.jsMin JSNum.inf = fin (rrs.foldl min r) := by
          rw [hvv]
          exact foldl_jsMin_inf rrs r
        have hmax : (v :: vs).foldl JSNum.jsMax JSNum.negInf = fin (rrs.foldl max r) := by
          rw [hvv]
          exact foldl_jsMax_negInf rrs r
        have hsum : (v :: vs).foldl JSNum.add (fin 0) = fin (0 + (r :: rrs).sum) := by
          rw [hvv]
          exact foldl_add_map_fin (r :: rrs) 0
        have hLpos : (0 : ℚ) < ((v :: vs).length : ℚ) := by
          exact_mod_cast Nat.succ_pos vs.length
        have hLne : ((v :: vs).length : ℚ) ≠ 0 := ne_of_gt hLpos
        have hdivfin : ∀ a b : ℚ, b ≠ 0 → JSNum.div (fin a) (fin b) = fin (a / b) := by
          intro a b hb
          simp [JSNum.div, hb]
        have havg : JSNum.div ((v :: vs).foldl JSNum.add (fin 0))
            (fin ((v :: vs).length : ℚ)) =
            fin ((0 + (r :: rrs).sum) / ((v :: vs).length : ℚ)) := by
          rw [hsum, hdivfin _ _ hLne]
        have hstep1 : ((mapToSortedEntries m).map Prod.snd).filterMap JSNum.toRat =
            (mapToSortedEntries m).filterMap (fun p => JSNum.toRat p.2) :=
          List.filterMap_map Prod.snd JSNum.toRat (mapToSortedEntries m)
        have hp2 : (r :: rrs).Perm (finiteRats m) := by
          rw [← hrs, hstep1]
          exact hperm.filterMap _
        have hlen2 : (r :: rrs).length = (finiteRats m).length := hp2.length_eq
        have hsum2 : (r :: rrs).sum = (finiteRats m).sum := hp2.sum_eq
        have hminle : ∀ x ∈ r :: rrs, rrs.foldl min r ≤ x := by
          intro x hx
          rcases List.mem_cons.1 hx with rfl | hm
          · exact foldl_min_le_init rrs x
          · exact foldl_min_le_mem rrs r x hm
        have hmaxle : ∀ x ∈ r :: rrs, x ≤ rrs.foldl max r := by
          intro x hx
          rcases List.mem_cons.1 hx with rfl | hm
          · exact init_le_foldl_max rrs x
          · exact mem_le_foldl_max rrs r x hm
        have hc : ((v :: vs).length : ℚ) = ((r :: rrs).length : ℚ) := by
          rw [hlenvv]
        -- the last value, through the filtered entry list
        have hfil2 : ((mapToSortedEntries m).map Prod.snd).filter JSNum.isFinite =
            ((mapToSortedEntries m).filter (fun p => p.2.isFinite)).map Prod.snd :=
          filter_isFinite_map_snd _
        have hmapeq : ((mapToSortedEntries m).filter (fun p => p.2.isFinite)).map Prod.snd =
            v :: vs := by
          rw [← hfil2, hval]
        have hfrs_ne : (mapToSortedEntries m).filter (fun p => p.2.isFinite) ≠ [] := by
          intro h0
          rw [h0] at hmapeq
          simp at hmapeq
        have hlast : (v :: vs).getLast (List.cons_ne_nil v vs) =
            (((mapToSortedEntries m).filter (fun p => p.2.isFinite)).getLast hfrs_ne).2 := by
          have h1 := List.getLast?_eq_getLast (v :: vs) (List.cons_ne_nil v vs)
          have h2 := List.getLast?_map Prod.snd
            ((mapToSortedEntries m).filter (fun p => p.2.isFinite))
          have h3 := List.getLast?_eq_getLast
            ((mapToSortedEntries m).filter (fun p => p.2.isFinite)) hfrs_ne
          rw [hmapeq, h1, h3, Option.map_some'] at h2
          exact Option.some_inj.1 h2
        have hmem : ((mapToSortedEntries m).filter (fun p => p.2.isFinite)).getLast hfrs_ne ∈
            (mapToSortedEntries m).filter (fun p => p.2.isFinite) := List.getLast_mem _
        have hmem3 : ((mapToSortedEntries m).filter (fun p => p.2.isFinite)).getLast hfrs_ne ∈
            m := hperm.mem_iff.1 (List.mem_filter.1 hmem).1
        have hfinlast :
            (((mapToSortedEntries m).filter (fun p => p.2.isFinite)).getLast hfrs_ne).2.isFinite
              = true := by
          have h4 := List.of_mem_filter hmem
          simpa using h4
        have hsorted : List.Sorted tsLe
            ((mapToSortedEntries m).filter (fun p => p.2.isFinite)) :=
          List.Pairwise.sublist (List.filter_sublist _) (List.sorted_insertionSort tsLe m)
        refine ⟨rrs.foldl min r, (0 + (r :: rrs).sum) / ((v :: vs).length : ℚ),
          rrs.foldl max r, hmin, havg, hmax, ?_, ?_, ?_, ?_, ?_⟩
        · rw [zero_add, le_div_iff₀ hLpos, hc, mul_comm]
          exact length_mul_le_sum _ _ hminle
        · rw [zero_add, div_le_iff₀ hLpos, hc, mul_comm]
          exact sum_le_length_mul _ _ hmaxle
        · exact hlenvv.trans hlen2
        · rw [zero_add, hsum2, hlenvv, hlen2]
        · refine ⟨(((mapToSortedEntries m).filter (fun p => p.2.isFinite)).getLast hfrs_ne).1,
            (((mapToSortedEntries m).filter (fun p => p.2.isFinite)).getLast hfrs_ne).2,
            ?_, hlast, hfinlast, ?_⟩
          · rw [Prod.mk.eta]
            exact hmem3
          · intro q hq hqf
            exact sorted_key_le_getLast _ hsorted hfrs_ne q
              (List.mem_filter.2 ⟨hperm.mem_iff.2 hq, hqf⟩)

/-- C1 counterexample: the series `[1 ↦ 5, 2 ↦ NaN]` summarizes to a
non-null stats record, but its `last` field is `5`, the value at the
greatest timestamp with a finite value, not the value `NaN` found at the
maximum timestamp key `2` of the series. -/
theorem stats_last_counterexample :
    ∃ s, statsFromMap [((1 : Int), fin 5), ((2 : Int), nan)] = some s ∧
      mapGet [((1 : Int), fin 5), ((2 : Int), nan)] 2 = some nan ∧
      (∀ p ∈ ([((1 : Int), fin 5), ((2 : Int), nan)] : SeriesMap), p.1 ≤ 2) ∧
      s.last ≠ nan := by
  refine ⟨⟨1, fin 5, fin 5, fin 5, fin 5⟩, ?_, by decide, by decide, by decide⟩
  have hval : ((mapToSortedEntries [((1 : Int), fin 5), ((2 : Int), nan)]).map
      Prod.snd).filter JSNum.isFinite = [fin 5] := by decide
  rw [statsFromMap_cons _ _ _ hval]
  norm_num [JSNum.jsMin, JSNum.jsMax, JSNum.add, JSNum.div]

/-- Witness for C1 at the concrete series `[1 ↦ 4]`. -/
theorem stats_summary_spec_witness :
    (statsFromMap [((1 : Int), fin 4)] = none ↔
        ∀ p ∈ ([((1 : Int), fin 4)] : SeriesMap), p.2.isFinite = false)
      ∧ ∀ s, statsFromMap [((1 : Int), fin 4)] = some s →
          ∃ mn av mx : ℚ,
            s.min = fin mn ∧ s.avg = fin av ∧ s.max = fin mx ∧
            mn ≤ av ∧ av ≤ mx ∧
            s.samples = (finiteRats [((1 : Int), fin 4)]).length ∧
            av = (finiteRats [((1 : Int), fin 4)]).sum /
              ((finiteRats [((1 : Int), fin 4)]).length : ℚ) ∧
            ∃ t lv, (t, lv) ∈ ([((1 : Int), fin 4)] : SeriesMap) ∧ s.last = lv ∧
              lv.isFinite = true ∧
              ∀ q ∈ ([((1 : Int), fin 4)] : SeriesMap), q.2.isFinite = true → q.1 ≤ t :=
  stats_summary_spec [((1 : Int), fin 4)]

/-- Witness for C8 at a concrete metric name and unit. -/
theorem emptySeries_soft_witness :
    aggregateSeriesByTimestamp [] = []
      ∧ statsFromMap [] = none
      ∧ renderLine "cluster_node_count" none "" = "cluster_node_count" ++ ": n/a" :=
  emptySeries_soft "cluster_node_count" ""
